import Mathlib

/-!
Verification of the cookbook heading-detection / recipe-segmentation library.

The Lean definitions below are a shallow embedding of the Python sources
`src/cookbook_lib.py` (the root library) and
`src/cookbook_project/cookbook_lib.py` (the project variant).  Pure text
processing is modelled over `List Char` / `String`; PyMuPDF pages are
modelled by the `Page` structure (styled spans grouped in blocks and
lines, plus the plain extracted page text); font sizes are modelled as
rationals.  Python character predicates (`str.isdigit`, `str.strip`,
`str.lower`, the `\w` class) are modelled by their ASCII behaviour,
which is what every string appearing in this development exercises.
-/

namespace Cookbook

/-- Python whitespace for `str.strip` / `\s` (ASCII fragment). -/
def pyIsSpace (c : Char) : Bool :=
  c == ' ' || c == '\t' || c == '\n' || c == '\r' || c == Char.ofNat 11 || c == Char.ofNat 12

/-- Python `str.strip()`: drop leading and trailing whitespace. -/
def pyStrip (l : List Char) : List Char :=
  ((l.dropWhile pyIsSpace).reverse.dropWhile pyIsSpace).reverse

/-- Python `str.lower()` (ASCII fragment). -/
def lowerStr (s : String) : String :=
  String.mk (s.toList.map Char.toLower)

/-- Python `text.endswith(".")`. -/
def endsWithDot (t : String) : Bool :=
  t.toList.getLast? == some ('.')

/-- Regex word character `\w` (ASCII fragment): letter, digit or underscore. -/
def isWordChar (c : Char) : Bool :=
  c.isAlpha || c.isDigit || c == '_'

/-- Whether `\bw\b` matches in `s` at position `i`: the characters of `w` occur at `i`
and the adjacent characters (if any) are not word characters. -/
def wholeWordAt (w s : List Char) (i : Nat) : Bool :=
  ((s.drop i).take w.length == w)
  && (decide (i = 0) || !(isWordChar (s.getD (i - 1) (' '))))
  && (decide (s.length ≤ i + w.length) || !(isWordChar (s.getD (i + w.length) (' '))))

/-- Whether `re.search(r"\bw\b", s)` succeeds: some position of `s` matches. -/
def containsWholeWord (w : String) (s : String) : Bool :=
  (List.range (s.length + 1)).any (fun i => wholeWordAt w.toList s.toList i)

/-- A styled text span (fields `text` and `size`) from `page.get_text("dict")`. -/
structure Span where
  text : String
  size : ℚ
deriving DecidableEq, Inhabited

/-- One page: the span blocks (blocks → lines → spans, in document order;
a block without a `"lines"` key is modelled by an empty block) and the plain
text returned by `page.get_text("text")`. -/
structure Page where
  blocks : List (List (List Span))
  text : String
deriving DecidableEq, Inhabited

/-- A document is its sequence of pages; `len(doc)` is `Document.length`. -/
abbrev Document := List Page

/-- The measurement words excluded by
`re.search(r"\b(grams|ml|cup|tablespoon|teaspoon|oz)\b", text.lower())`. -/
def unitWords : List String :=
  ["grams", "ml", "cup", "tablespoon", "teaspoon", "oz"]

/-- Reserved section labels of the root library scorer
(`src/cookbook_lib.py`, line 31). -/
def rootLabels : List String :=
  ["ingredients", "method", "directions", "instructions", "the cookery"]

/-- Reserved section labels of the project scorer
(`src/cookbook_project/cookbook_lib.py`, line 37): note the absence of
`"instructions"`. -/
def cookbookProjectLabels : List String :=
  ["ingredients", "method", "directions", "the cookery"]

/-- The candidate filter of `get_most_likely_title` applied to the stripped
span text `t` (the conjunction at lines 23-35 of `src/cookbook_lib.py`,
parameterised by the reserved-label list so that both variants share it). -/
def isCandidateText (labels : List String) (t : String) : Bool :=
  decide (t ≠ "") && decide (t.length < 50)
  && !(t.toList.any Char.isDigit)
  && !(unitWords.any (fun w => containsWholeWord w (lowerStr t)))
  && !(decide (lowerStr t ∈ labels))
  && !(endsWithDot t)

/-- The candidate the span contributes: its stripped text paired with its
size when the filter holds (`title_candidates.append((text, size))`). -/
def candidateOf (labels : List String) (sp : Span) : Option (String × ℚ) :=
  let t := String.mk (pyStrip sp.text.toList)
  if isCandidateText labels t then some (t, sp.size) else none

/-- The list `title_candidates`: every span of the page, in block/line/span order,
stripped and kept when the candidate filter holds, paired with its size. -/
def titleCandidates (labels : List String) (page : Page) : List (String × ℚ) :=
  (page.blocks.flatten.flatten).filterMap (candidateOf labels)

/-- The scorer `get_most_likely_title`: `sorted(title_candidates, key=lambda x: -x[1])[0][0]`
when candidates exist, else `None`.  The Python builtin `sorted` is a stable sort, and a
stable sort by descending size is exactly `insertionSort` with `b.2 ≤ a.2`. -/
def get_most_likely_title (labels : List String) (page : Page) : Option String :=
  match (titleCandidates labels page).insertionSort (fun a b => b.2 ≤ a.2) with
  | [] => none
  | c :: _ => some c.1

/-- The first candidate attaining the maximal size (helper used to state what
the head of the stable descending sort is). -/
def firstMaxBySize : List (String × ℚ) → Option (String × ℚ)
  | [] => none
  | c :: cs =>
    match firstMaxBySize cs with
    | none => some c
    | some m => if m.2 > c.2 then some m else some c

/-- The body of the `detect_headings` loop on page `i`:
`if title and title not in [h[0] for h in headings]: headings.append((title, i))`. -/
def stepAcc (labels : List String) (pg : Page) (acc : List (String × Nat)) (i : Nat) :
    List (String × Nat) :=
  match get_most_likely_title labels pg with
  | none => acc
  | some t =>
    if decide (t ≠ "") && decide (t ∉ acc.map Prod.fst) then acc ++ [(t, i)] else acc

/-- The loop of `detect_headings`: walk the remaining pages with the accumulated
heading list and the index of the next page. -/
def detectFrom (labels : List String) (acc : List (String × Nat)) (i : Nat) :
    List Page → List (String × Nat)
  | [] => acc
  | pg :: rest => detectFrom labels (stepAcc labels pg acc i) (i + 1) rest

/-- Python `detect_headings(doc)`. -/
def detect_headings (labels : List String) (doc : Document) : List (String × Nat) :=
  detectFrom labels [] 0 doc

/-- A recipe range `[startPage, endPage)` attributed to one heading. -/
structure RecipeRange where
  title : String
  startPage : Nat
  endPage : Nat
deriving DecidableEq, Inhabited

/-- The page ranges computed (identically) by `split_recipes`,
`build_ingredient_index`, `export_to_html` and `export_master_html_site`:
`end_page = headings[i + 1][1] if i + 1 < len(headings) else len(doc)`. -/
def recipeRanges : List (String × Nat) → Nat → List RecipeRange
  | [], _ => []
  | [(t, s)], docLen => [⟨t, s, docLen⟩]
  | (t, s) :: (t', s') :: rest, docLen =>
    ⟨t, s, s'⟩ :: recipeRanges ((t', s') :: rest) docLen

/-- How many of the ranges contain page `p`. -/
def countContaining (rs : List RecipeRange) (p : Nat) : Nat :=
  rs.countP (fun r => decide (r.startPage ≤ p) && decide (p < r.endPage))

/-! Section: Ingredient Indexer (`build_ingredient_index`) -/

/-- The stop words of `build_ingredient_index`. -/
def stopWords : List String :=
  ["cup", "cups", "tsp", "tbsp", "grams", "ml", "oz", "and", "with", "for", "the"]

/-- Emit a finished letter run as a token of `re.findall(r"\b[a-zA-Z][a-zA-Z]+\b", ...)`:
kept iff it has length at least two and its neighbouring characters (the one
before the run, the one after) are not word characters, i.e. both `\b`s match. -/
def emitRun (pre : Option Char) (run : List Char) (next : Option Char) : List (List Char) :=
  if decide (2 ≤ run.length)
     && (match pre with | none => true | some p => !(isWordChar p))
     && (match next with | none => true | some n => !(isWordChar n))
  then [run] else []

/-- Scanner for `re.findall(r"\b[a-zA-Z][a-zA-Z]+\b", text)`: `pre` is the last
character seen before the current (possibly empty) letter run `run`. -/
def tokenizeGo (pre : Option Char) (run : List Char) : List Char → List (List Char)
  | [] => emitRun pre run none
  | c :: cs =>
    if c.isAlpha then tokenizeGo pre (run ++ [c]) cs
    else emitRun pre run (some c) ++ tokenizeGo (some c) [] cs

/-- All matches of `\b[a-zA-Z][a-zA-Z]+\b` in `text`, in order. -/
def tokenize (text : String) : List (List Char) :=
  tokenizeGo none [] text.toList

/-- Lowercasing `word.lower()` of a token. -/
def tokToKey (tok : List Char) : String :=
  String.mk (tok.map Char.toLower)

/-- The lowercased tokens of `text` surviving
`word not in the stop-word set and len(word) > 2`. -/
def keptWords (text : String) : List String :=
  (tokenize text).filterMap (fun tok =>
    if !(decide (tokToKey tok ∈ stopWords)) && decide (2 < (tokToKey tok).length)
    then some (tokToKey tok) else none)

/-- Extracted text `doc[p].get_text("text")` (out-of-range reads, which the library never
performs on detector-produced headings, are modelled as empty text). -/
def pageTextD (doc : Document) (p : Nat) : String :=
  (doc.getD p default).text

/-- The concatenated text of the pages in `[s, e)`:
`for p in range(start, end): text += doc[p].get_text("text")`. -/
def rangeText (doc : Document) (s e : Nat) : String :=
  String.join ((List.range' s (e - s)).map (pageTextD doc))

/-- Effect of one recipe range on the index: for every kept word of the range
text, `index[word].add(title)`. -/
def addRange (idx : String → Finset String) (title : String) (text : String) :
    String → Finset String :=
  fun w => if w ∈ keptWords text then insert title (idx w) else idx w

/-- The index `build_ingredient_index(doc, headings)` as the mapping from word to its
set of recipe titles (`defaultdict(set)`, so unmentioned words map to `∅`). -/
def build_ingredient_index (doc : Document) (headings : List (String × Nat)) :
    String → Finset String :=
  (recipeRanges headings doc.length).foldl
    (fun idx r => addRange idx r.title (rangeText doc r.startPage r.endPage))
    (fun _ => ∅)

/-! Section: Cross-source matcher and sanitizer (`src/cookbook_project/cookbook_lib.py`) -/

/-- Python `normalize_title`: `re.sub(r"[\W_]+", "", title).lower()` — keep the
alphanumeric characters, then lowercase (ASCII fragment of `\w`). -/
def normalize_title (t : String) : String :=
  String.mk ((t.toList.filter (fun c => c.isAlpha || c.isDigit)).map Char.toLower)

/-- Lookup of `recipe_sources.get(norm, [])` followed by
`[s for s in sources if s != source]` (lines 206-211 of the project file). -/
def other_sources (reg : List (String × List String)) (norm source : String) :
    List String :=
  ((reg.lookup norm).getD []).filter (fun s => s != source)

/-- Index of the last `'.'` of the string, if any (`p.rfind('.')`). -/
def rfindDot (l : List Char) : Option Nat :=
  ((l.enum.filter (fun e => e.2 == '.')).map Prod.fst).getLast?

/-- The root part of `os.path.splitext` for a path without separators:
split at the last dot unless every character before it is a dot. -/
def splitextRoot (l : List Char) : List Char :=
  match rfindDot l with
  | none => l
  | some i => if (l.take i).any (fun c => !(c == '.')) then l.take i else l

/-- Python `re.sub(r"\s+", "_", ...)`: replace each maximal whitespace run by one
underscore. -/
def collapseWs : List Char → List Char
  | [] => []
  | [c] => if pyIsSpace c then [('_')] else [c]
  | c :: d :: rest =>
    if pyIsSpace c && pyIsSpace d then collapseWs (d :: rest)
    else (if pyIsSpace c then ('_') else c) :: collapseWs (d :: rest)

/-- Python `sanitize_title` (lines 8-12 of the project file): drop the extension part,
remove the characters outside `[\w\s-]`, strip, and replace whitespace runs
with underscores. -/
def sanitize_title (t : String) : String :=
  let l := splitextRoot t.toList
  let l := l.filter (fun c => isWordChar c || pyIsSpace c || c == '-')
  String.mk (collapseWs (pyStrip l))

/-! Section: Artifact writers (pure content functions; file IO is the Sink) -/

/-- String `≤` as a Bool (Python compares strings lexicographically). -/
def strLe (a b : String) : Bool := decide (a < b) || a == b

/-- Python `sorted` on strings. -/
def sortStrings (l : List String) : List String :=
  l.insertionSort (fun a b => strLe a b = true)

/-- The comma join of a list of strings. -/
def joinComma (l : List String) : String :=
  String.intercalate (", ") l

/-- Scanner for Python `title.split()`: maximal non-whitespace runs. -/
def splitWsGo (cur : List Char) : List Char → List (List Char)
  | [] => if cur.isEmpty then [] else [cur]
  | c :: cs =>
    if pyIsSpace c then
      (if cur.isEmpty then [] else [cur]) ++ splitWsGo [] cs
    else splitWsGo (cur ++ [c]) cs

/-- The filename stem `"_".join(title.split())` (root `generate_toc` / `export_to_html`). -/
def pySplitWsJoin (title : String) : String :=
  String.intercalate ("_") ((splitWsGo [] title.toList).map String.mk)

/-- The text written by the root `generate_toc`. -/
def generate_toc_content (headings : List (String × Nat)) : String :=
  "## Table of Contents\n\n" ++
  String.join (headings.enum.map (fun e =>
    toString (e.1 + 1) ++ (". [") ++ e.2.1 ++ ("](SplitRecipes/")
      ++ pySplitWsJoin e.2.1 ++ (".pdf)\n")))

/-- The text written by `save_index`, on an enumeration of the index:
keys sorted, title sets sorted. -/
def save_index_content (index : List (String × List String)) : String :=
  "## Ingredient Index\n\n" ++
  String.join ((sortStrings (index.map Prod.fst)).map (fun ing =>
    ("- **") ++ ing ++ ("** → ")
      ++ joinComma (sortStrings ((index.lookup ing).getD [])) ++ ("\n")))

/-- The TOC page written by the project `export_to_html`. -/
def export_to_html_toc_page (headings : List (String × Nat)) : String :=
  "<h1>Recipe Index</h1>\n<ul>\n" ++
  String.join (headings.map (fun h =>
    ("<li><a href=\"") ++ sanitize_title h.1 ++ (".html\">") ++ h.1 ++ ("</a></li>\n")))
  ++ "</ul>\n"

/-- The ingredient page written by `export_to_html`, on an enumeration of the
index: keys sorted, but each title set joined in iteration order
(`", ".join(index[ingredient])`, with no `sorted` — unlike `save_index`). -/
def export_to_html_ingredients_page (index : List (String × List String)) : String :=
  "<h1>Ingredient Index</h1>\n<ul>\n" ++
  String.join ((sortStrings (index.map Prod.fst)).map (fun ing =>
    ("<li><strong>") ++ ing ++ ("</strong>: ")
      ++ joinComma ((index.lookup ing).getD []) ++ ("</li>\n")))
  ++ "</ul>\n"

/-! Section: Master-site exporter: the `parsed` binding (project file, lines 181-199) -/

/-- Python `re.sub(pat, repl, s, count=1)` for a case-insensitive whole-word pattern:
replace the leftmost match, if any. -/
def subFirstWW (w repl s : List Char) : List Char :=
  match (List.range (s.length + 1)).find?
      (fun i => wholeWordAt w (s.map Char.toLower) i) with
  | none => s
  | some i => s.take i ++ repl ++ s.drop (i + w.length)

/-- Same for the two-word alternation `\bmethod\b|\bdirections\b`. -/
def subFirstWW2 (w1 w2 repl s : List Char) : List Char :=
  match (List.range (s.length + 1)).find?
      (fun i => wholeWordAt w1 (s.map Char.toLower) i
             || wholeWordAt w2 (s.map Char.toLower) i) with
  | none => s
  | some i =>
    if wholeWordAt w1 (s.map Char.toLower) i
    then s.take i ++ repl ++ s.drop (i + w1.length)
    else s.take i ++ repl ++ s.drop (i + w2.length)

/-- The two `re.sub(..., count=1)` calls applied to the accumulated recipe
text inside the per-page loop of `export_master_html_site`. -/
def parseSections (recipeText : String) : String :=
  let s1 := subFirstWW (("ingredients").toList)
    (("\n\n<h2>Ingredients</h2>").toList) recipeText.toList
  let s2 := subFirstWW2 (("method").toList) (("directions").toList)
    (("\n\n<h2>Method</h2>").toList) s1
  String.mk s2

/-- The value of the loop-local variable `parsed` after
`for p in range(start, end): recipe_text += doc[p].get_text("text"); parsed = ...`:
`none` models the name being undefined (the loop body never ran). -/
def masterRecipeParsed (doc : Document) (start stop : Nat) : Option String :=
  ((List.range' start (stop - start)).foldl
    (fun (acc : String × Option String) p =>
      let recipe_text := acc.1 ++ pageTextD doc p
      (recipe_text, some (parseSections recipe_text)))
    (("", none))).2

-- Concrete documents used by counterexamples and witnesses.

/-- A page with no text spans at all: the scorer finds no candidate. -/
def blankPage : Page := ⟨[], "front matter text\n"⟩

/-- A page whose single span is a valid title. -/
def titlePage : Page := ⟨[[[⟨"Soup", 12⟩]]], "Soup\nwater and carrots\n"⟩

/-- A two-page document whose first detected heading is on page 1, not 0. -/
def exDoc : Document := [blankPage, titlePage]

/-- A page whose single span is exactly the reserved label text. -/
def instrPage : Page := ⟨[[[⟨"Instructions", 12⟩]]], "Instructions\n"⟩


/-- Two enumerations of the same one-key ingredient index whose title set is
listed in the two possible iteration orders. -/
def idxEnumA : List (String × List String) := [(("butter"), ["Apple Pie", "Banana Bread"])]

/-- Same contents as `idxEnumA`, opposite iteration order of the title set. -/
def idxEnumB : List (String × List String) := [(("butter"), ["Banana Bread", "Apple Pie"])]


/-! Section: Scorer lemmas: the head of the stable descending sort -/

lemma firstMaxBySize_cons (c : String × ℚ) (cs : List (String × ℚ)) :
    firstMaxBySize (c :: cs) =
      match firstMaxBySize cs with
      | none => some c
      | some m => if m.2 > c.2 then some m else some c := rfl

lemma firstMaxBySize_ne_none (c : String × ℚ) (cs : List (String × ℚ)) :
    firstMaxBySize (c :: cs) ≠ none := by
  rw [firstMaxBySize_cons]
  cases h : firstMaxBySize cs with
  | none => simp
  | some m => by_cases hm : m.2 > c.2 <;> simp [hm]

/-- The candidate returned by `firstMaxBySize` is the first list element of
maximal size: everything before it is strictly smaller, everything at all is
no larger. -/
lemma firstMaxBySize_spec :
    ∀ (cs : List (String × ℚ)) (m : String × ℚ), firstMaxBySize cs = some m →
      ∃ l1 l2, cs = l1 ++ m :: l2 ∧ (∀ c ∈ l1, c.2 < m.2) ∧ ∀ c ∈ cs, c.2 ≤ m.2 := by
  intro cs
  induction cs with
  | nil => intro m h; simp [firstMaxBySize] at h
  | cons c cs ih =>
    intro m h
    rw [firstMaxBySize_cons] at h
    cases hcs : firstMaxBySize cs with
    | none =>
      rw [hcs] at h
      obtain rfl : c = m := by simpa using h
      have hnil : cs = [] := by
        cases cs with
        | nil => rfl
        | cons a as => exact absurd hcs (firstMaxBySize_ne_none a as)
      subst hnil
      exact ⟨[], [], rfl, by simp, by simp⟩
    | some m' =>
      rw [hcs] at h
      have h' : (if m'.2 > c.2 then some m' else some c) = some m := h
      obtain ⟨l1, l2, hdec, hlt, hle⟩ := ih m' hcs
      by_cases hm : m'.2 > c.2
      · rw [if_pos hm] at h'
        obtain rfl : m' = m := by simpa using h'
        refine ⟨c :: l1, l2, by rw [hdec, List.cons_append], ?_, ?_⟩
        · intro x hx
          rcases List.mem_cons.mp hx with rfl | hx
          · exact hm
          · exact hlt x hx
        · intro x hx
          rcases List.mem_cons.mp hx with rfl | hx
          · exact le_of_lt hm
          · exact hle x hx
      · rw [if_neg hm] at h'
        obtain rfl : c = m := by simpa using h'
        refine ⟨[], cs, rfl, by simp, ?_⟩
        intro x hx
        rcases List.mem_cons.mp hx with rfl | hx
        · exact le_refl _
        · exact le_trans (hle x hx) (not_lt.mp hm)

/-- The head of the stable descending-size sort is the first candidate of
maximal size. -/
lemma insertionSort_head (cs : List (String × ℚ)) :
    (cs.insertionSort (fun a b => b.2 ≤ a.2)).head? = firstMaxBySize cs := by
  induction cs with
  | nil => rfl
  | cons c cs ih =>
    rw [List.insertionSort]
    cases hs : cs.insertionSort (fun a b => b.2 ≤ a.2) with
    | nil =>
      have hcs : cs = [] := by
        have hp := List.perm_insertionSort (fun a b : String × ℚ => b.2 ≤ a.2) cs
        rw [hs] at hp
        exact hp.symm.eq_nil
      subst hcs
      simp [List.orderedInsert, firstMaxBySize]
    | cons y ys =>
      rw [hs] at ih
      have hfm : firstMaxBySize cs = some y := ih.symm
      rw [firstMaxBySize_cons, hfm]
      show (List.orderedInsert (fun a b => b.2 ≤ a.2) c (y :: ys)).head? =
        if y.2 > c.2 then some y else some c
      simp only [List.orderedInsert]
      by_cases hr : y.2 ≤ c.2
      · rw [if_pos hr]
        simp [not_lt.mpr hr]
      · rw [if_neg hr]
        simp [not_le.mp hr]

lemma get_most_likely_title_eq (labels : List String) (page : Page) :
    get_most_likely_title labels page =
      (firstMaxBySize (titleCandidates labels page)).map Prod.fst := by
  unfold get_most_likely_title
  rw [← insertionSort_head]
  cases hs : (titleCandidates labels page).insertionSort (fun a b => b.2 ≤ a.2) <;> rfl

lemma candidateOf_eq_some {labels : List String} {sp : Span} {c : String × ℚ}
    (h : candidateOf labels sp = some c) : isCandidateText labels c.1 = true := by
  unfold candidateOf at h
  by_cases hc : isCandidateText labels (String.mk (pyStrip sp.text.toList))
  · simp only [if_pos hc] at h
    obtain rfl : (String.mk (pyStrip sp.text.toList), sp.size) = c := by simpa using h
    exact hc
  · simp only [if_neg hc] at h
    exact absurd h (by simp)

lemma mem_titleCandidates {labels : List String} {page : Page} {c : String × ℚ}
    (h : c ∈ titleCandidates labels page) : isCandidateText labels c.1 = true := by
  unfold titleCandidates at h
  obtain ⟨sp, _, hc⟩ := List.mem_filterMap.mp h
  exact candidateOf_eq_some hc

lemma isCandidateText_props {labels : List String} {t : String}
    (h : isCandidateText labels t = true) :
    t ≠ "" ∧ (t.toList.any Char.isDigit) = false ∧ endsWithDot t = false ∧
      lowerStr t ∉ labels := by
  unfold isCandidateText at h
  simp only [Bool.and_eq_true, Bool.not_eq_true', decide_eq_true_eq,
    decide_eq_false_iff_not] at h
  obtain ⟨⟨⟨⟨⟨h1, _⟩, h3⟩, _⟩, h5⟩, h6⟩ := h
  exact ⟨h1, h3, h6, h5⟩

/-- Every title the scorer returns is a candidate of maximal size. -/
lemma get_title_firstMax {labels : List String} {page : Page} {t : String}
    (h : get_most_likely_title labels page = some t) :
    ∃ m, firstMaxBySize (titleCandidates labels page) = some m ∧ m.1 = t := by
  rw [get_most_likely_title_eq] at h
  cases hm : firstMaxBySize (titleCandidates labels page) with
  | none => rw [hm] at h; exact absurd h (by simp)
  | some m => rw [hm] at h; exact ⟨m, rfl, by simpa using h⟩

/-- C2 (amended): for any reserved-label list, a title returned by
`get_most_likely_title` is non-empty, contains no digit, does not end with a
period, and its lowercased form is not a reserved label of that scorer.
The root scorer uses `rootLabels` (with `"instructions"`); the project scorer
uses `cookbookProjectLabels` (without it). -/
theorem C2_scorer_exclusions (labels : List String) (page : Page) (t : String)
    (h : get_most_likely_title labels page = some t) :
    t ≠ "" ∧ (t.toList.any Char.isDigit) = false ∧ endsWithDot t = false ∧
      lowerStr t ∉ labels := by
  obtain ⟨m, hm, rfl⟩ := get_title_firstMax h
  obtain ⟨l1, l2, hdec, _, _⟩ := firstMaxBySize_spec _ m hm
  have hmem : m ∈ titleCandidates labels page := by rw [hdec]; simp
  exact isCandidateText_props (mem_titleCandidates hmem)

/-- Witness for the amended C2 theorem at a concrete page. -/
theorem C2_scorer_exclusions_witness :
    ("Soup" : String) ≠ "" ∧ ((("Soup") : String).toList.any Char.isDigit) = false ∧
      endsWithDot ("Soup") = false ∧ lowerStr ("Soup") ∉ rootLabels :=
  C2_scorer_exclusions rootLabels titlePage ("Soup") (by decide)

/-- C2 (counterexample): the project scorer returns the span text
`"Instructions"` as a title, although its lowercasing is one of the claim's
reserved section labels (it appears in the reserved list of the root scorer). -/
theorem C2_counterexample :
    get_most_likely_title cookbookProjectLabels instrPage = some ("Instructions") ∧
      lowerStr ("Instructions") ∈ rootLabels := by decide

/-- C4 (confirmed): the scorer returns `None` exactly when no span qualifies;
otherwise it returns the text of a qualifying candidate of maximal font size
that is preceded only by candidates of strictly smaller size (the stable
tie-break of the descending stable sort keeps the first-encountered maximum). -/
theorem C4_largest_first_tiebreak (labels : List String) (page : Page) :
    (get_most_likely_title labels page = none ↔ titleCandidates labels page = []) ∧
    ∀ t, get_most_likely_title labels page = some t →
      ∃ s l1 l2, titleCandidates labels page = l1 ++ (t, s) :: l2 ∧
        (∀ c ∈ l1, c.2 < s) ∧ ∀ c ∈ titleCandidates labels page, c.2 ≤ s := by
  constructor
  · rw [get_most_likely_title_eq]
    constructor
    · intro h
      cases hc : titleCandidates labels page with
      | nil => rfl
      | cons a as =>
        rw [hc] at h
        cases hm : firstMaxBySize (a :: as) with
        | none => exact absurd hm (firstMaxBySize_ne_none a as)
        | some m => rw [hm] at h; exact absurd h (by simp)
    · intro h; rw [h]; rfl
  · intro t h
    obtain ⟨m, hm, rfl⟩ := get_title_firstMax h
    obtain ⟨l1, l2, hdec, hlt, hle⟩ := firstMaxBySize_spec _ m hm
    exact ⟨m.2, l1, l2, by simpa using hdec, hlt, hle⟩

/-! Section: Heading Detector lemmas -/

lemma get_title_ne_empty {labels : List String} {page : Page} {t : String}
    (h : get_most_likely_title labels page = some t) : t ≠ "" := by
  obtain ⟨m, hm, rfl⟩ := get_title_firstMax h
  obtain ⟨l1, l2, hdec, _, _⟩ := firstMaxBySize_spec _ m hm
  have hmem : m ∈ titleCandidates labels page := by rw [hdec]; simp
  exact (isCandidateText_props (mem_titleCandidates hmem)).1

lemma nodup_fst_eq {l : List (String × Nat)} (hnd : (l.map Prod.fst).Nodup)
    {t : String} {a b : Nat} (ha : (t, a) ∈ l) (hb : (t, b) ∈ l) : a = b := by
  induction l with
  | nil => simp at ha
  | cons c cs ih =>
    simp only [List.map_cons, List.nodup_cons] at hnd
    rcases List.mem_cons.mp ha with ha' | ha'
    · rcases List.mem_cons.mp hb with hb' | hb'
      · exact (Prod.ext_iff.mp (ha'.trans hb'.symm)).2
      · refine absurd ?_ hnd.1
        have ht : t ∈ cs.map Prod.fst := List.mem_map_of_mem Prod.fst hb'
        rw [show c.1 = t from by rw [← ha']]
        exact ht
    · rcases List.mem_cons.mp hb with hb' | hb'
      · refine absurd ?_ hnd.1
        have ht : t ∈ cs.map Prod.fst := List.mem_map_of_mem Prod.fst ha'
        rw [show c.1 = t from by rw [← hb']]
        exact ht
      · exact ih hnd.2 ha' hb'

lemma stepAcc_eq (labels : List String) (pg : Page) (acc : List (String × Nat)) (i : Nat) :
    stepAcc labels pg acc i = acc ∨
    ∃ t, get_most_likely_title labels pg = some t ∧ t ∉ acc.map Prod.fst ∧
      stepAcc labels pg acc i = acc ++ [(t, i)] := by
  unfold stepAcc
  cases h : get_most_likely_title labels pg with
  | none => exact Or.inl rfl
  | some t =>
    by_cases hg : (decide (t ≠ "") && decide (t ∉ acc.map Prod.fst)) = true
    · refine Or.inr ⟨t, rfl, ?_, by exact if_pos hg⟩
      simp only [Bool.and_eq_true, decide_eq_true_eq] at hg
      exact hg.2
    · exact Or.inl (by exact if_neg hg)

lemma subset_stepAcc (labels : List String) (pg : Page) (acc : List (String × Nat))
    (i : Nat) : acc ⊆ stepAcc labels pg acc i := by
  rcases stepAcc_eq labels pg acc i with h | ⟨t, _, _, h⟩ <;> rw [h]
  · exact fun x hx => hx
  · exact fun x hx => List.mem_append_left _ hx

lemma stepAcc_lt {labels : List String} {pg : Page} {acc : List (String × Nat)} {i : Nat}
    (hlt : ∀ h ∈ acc, h.2 < i) : ∀ h ∈ stepAcc labels pg acc i, h.2 < i + 1 := by
  rcases stepAcc_eq labels pg acc i with h | ⟨t, _, _, h⟩ <;> rw [h] <;> intro x hx
  · exact Nat.lt_succ_of_lt (hlt x hx)
  · rcases List.mem_append.mp hx with hx' | hx'
    · exact Nat.lt_succ_of_lt (hlt x hx')
    · obtain rfl : x = (t, i) := by simpa using hx'
      exact Nat.lt_succ_self i

lemma stepAcc_records {labels : List String} {pg : Page} {t : String}
    (acc : List (String × Nat)) (i : Nat)
    (h : get_most_likely_title labels pg = some t) :
    t ∈ acc.map Prod.fst ∨ (t, i) ∈ stepAcc labels pg acc i := by
  by_cases hm : t ∈ acc.map Prod.fst
  · exact Or.inl hm
  · right
    have hif : stepAcc labels pg acc i = acc ++ [(t, i)] := by
      unfold stepAcc
      rw [h]
      exact if_pos (by simp [get_title_ne_empty h, hm])
    rw [hif]
    simp

lemma detectFrom_acc_extends (labels : List String) :
    ∀ (pages : List Page) (acc : List (String × Nat)) (i : Nat),
      ∃ ext, detectFrom labels acc i pages = acc ++ ext := by
  intro pages
  induction pages with
  | nil => exact fun acc i => ⟨[], by simp [detectFrom]⟩
  | cons pg rest ih =>
    intro acc i
    simp only [detectFrom]
    rcases stepAcc_eq labels pg acc i with h | ⟨t, _, _, h⟩ <;> rw [h]
    · exact ih acc (i + 1)
    · obtain ⟨ext, hext⟩ := ih (acc ++ [(t, i)]) (i + 1)
      exact ⟨(t, i) :: ext, by rw [hext, List.append_assoc]; rfl⟩

lemma subset_detectFrom (labels : List String) (pages : List Page)
    (acc : List (String × Nat)) (i : Nat) : acc ⊆ detectFrom labels acc i pages := by
  obtain ⟨ext, hext⟩ := detectFrom_acc_extends labels pages acc i
  rw [hext]
  exact fun x hx => List.mem_append_left _ hx

lemma detectFrom_bound (labels : List String) :
    ∀ (pages : List Page) (acc : List (String × Nat)) (i : Nat),
      (∀ h ∈ acc, h.2 < i) →
      ∀ h ∈ detectFrom labels acc i pages, h.2 < i + pages.length := by
  intro pages
  induction pages with
  | nil =>
    intro acc i hlt h hh
    simp only [detectFrom] at hh
    simpa using hlt h hh
  | cons pg rest ih =>
    intro acc i hlt h hh
    simp only [detectFrom] at hh
    have := ih (stepAcc labels pg acc i) (i + 1) (stepAcc_lt hlt) h hh
    simp only [List.length_cons]
    omega

lemma detectFrom_chain (labels : List String) :
    ∀ (pages : List Page) (acc : List (String × Nat)) (i : Nat),
      (∀ h ∈ acc, h.2 < i) →
      List.Chain' (fun a b : String × Nat => a.2 < b.2) acc →
      List.Chain' (fun a b : String × Nat => a.2 < b.2) (detectFrom labels acc i pages) := by
  intro pages
  induction pages with
  | nil =>
    intro acc i _ hch
    simpa [detectFrom] using hch
  | cons pg rest ih =>
    intro acc i hlt hch
    simp only [detectFrom]
    refine ih (stepAcc labels pg acc i) (i + 1) (stepAcc_lt hlt) ?_
    rcases stepAcc_eq labels pg acc i with h | ⟨t, _, _, h⟩ <;> rw [h]
    · exact hch
    · rw [List.chain'_append]
      refine ⟨hch, List.chain'_singleton _, ?_⟩
      intro x hx y hy
      obtain rfl : (t, i) = y := by simpa using hy
      exact hlt x (List.mem_of_mem_getLast? hx)

lemma detectFrom_nodup (labels : List String) :
    ∀ (pages : List Page) (acc : List (String × Nat)) (i : Nat),
      ((acc.map Prod.fst).Nodup) →
      ((detectFrom labels acc i pages).map Prod.fst).Nodup := by
  intro pages
  induction pages with
  | nil =>
    intro acc i hnd
    simpa [detectFrom] using hnd
  | cons pg rest ih =>
    intro acc i hnd
    simp only [detectFrom]
    refine ih (stepAcc labels pg acc i) (i + 1) ?_
    rcases stepAcc_eq labels pg acc i with h | ⟨t, _, hnot, h⟩ <;> rw [h]
    · exact hnd
    · rw [List.map_append]
      simp only [List.map_cons, List.map_nil]
      rw [List.nodup_append]
      exact ⟨hnd, List.nodup_singleton t, by simpa using hnot⟩

lemma detectFrom_origin (labels : List String) :
    ∀ (pages : List Page) (acc : List (String × Nat)) (i : Nat),
      ∀ h ∈ detectFrom labels acc i pages,
        h ∈ acc ∨ (i ≤ h.2 ∧
          get_most_likely_title labels (pages.getD (h.2 - i) default) = some h.1) := by
  intro pages
  induction pages with
  | nil =>
    intro acc i h hh
    simp only [detectFrom] at hh
    exact Or.inl hh
  | cons pg rest ih =>
    intro acc i h hh
    simp only [detectFrom] at hh
    rcases ih (stepAcc labels pg acc i) (i + 1) h hh with hacc | ⟨hle, htitle⟩
    · rcases stepAcc_eq labels pg acc i with he | ⟨t, ht, _, he⟩
      · rw [he] at hacc
        exact Or.inl hacc
      · rw [he] at hacc
        rcases List.mem_append.mp hacc with hacc' | hacc'
        · exact Or.inl hacc'
        · obtain rfl : h = (t, i) := by simpa using hacc'
          exact Or.inr ⟨le_refl i, by simpa using ht⟩
    · right
      refine ⟨le_trans (Nat.le_succ i) hle, ?_⟩
      have harith : h.2 - i = (h.2 - (i + 1)) + 1 := by omega
      rw [harith, List.getD_cons_succ]
      exact htitle

lemma detectFrom_found (labels : List String) :
    ∀ (pages : List Page) (acc : List (String × Nat)) (i : Nat),
      (∀ h ∈ acc, h.2 < i) →
      ∀ j t, j < pages.length →
        get_most_likely_title labels (pages.getD j default) = some t →
        ∃ k, k ≤ i + j ∧ (t, k) ∈ detectFrom labels acc i pages := by
  intro pages
  induction pages with
  | nil =>
    intro acc i _ j t hj
    exact absurd hj (Nat.not_lt_zero j)
  | cons pg rest ih =>
    intro acc i hlt j t hj htitle
    simp only [detectFrom]
    cases j with
    | zero =>
      simp only [List.getD_cons_zero] at htitle
      rcases stepAcc_records acc i htitle with hmem | hmem
      · obtain ⟨p, hp, hfst⟩ := List.mem_map.mp hmem
        refine ⟨p.2, le_trans (le_of_lt (hlt p hp)) (Nat.le_add_right i 0), ?_⟩
        have : (t, p.2) = p := by rw [← hfst]
        rw [this]
        exact subset_detectFrom labels rest _ (i + 1) (subset_stepAcc labels pg acc i hp)
      · exact ⟨i, Nat.le_add_right i 0,
          subset_detectFrom labels rest _ (i + 1) hmem⟩
    | succ j' =>
      simp only [List.getD_cons_succ] at htitle
      obtain ⟨k, hk, hkmem⟩ :=
        ih (stepAcc labels pg acc i) (i + 1) (stepAcc_lt hlt) j' t
          (by simpa using hj) htitle
      exact ⟨k, by omega, hkmem⟩

/-- C5 (confirmed): the heading list has pairwise-distinct titles, strictly
increasing page indices, and each heading records its title at the first page
(in document order) on which the scorer produces that exact title; a later
page reproducing a recorded title adds no heading (distinctness). -/
theorem C5_detector_dedup_first_occurrence (labels : List String) (doc : Document) :
    ((detect_headings labels doc).map Prod.fst).Nodup ∧
    List.Chain' (fun a b : String × Nat => a.2 < b.2) (detect_headings labels doc) ∧
    ∀ h ∈ detect_headings labels doc,
      h.2 < doc.length ∧
      get_most_likely_title labels (doc.getD h.2 default) = some h.1 ∧
      ∀ j, j < h.2 → get_most_likely_title labels (doc.getD j default) ≠ some h.1 := by
  have hnd := detectFrom_nodup labels doc [] 0 (by simp)
  refine ⟨hnd, detectFrom_chain labels doc [] 0 (by simp) (by simp), ?_⟩
  intro h hh
  have hbound := detectFrom_bound labels doc [] 0 (by simp) h hh
  rcases detectFrom_origin labels doc [] 0 h hh with habs | ⟨_, htitle⟩
  · exact absurd habs (List.not_mem_nil h)
  · refine ⟨by simpa using hbound, by simpa using htitle, ?_⟩
    intro j hj hcontra
    obtain ⟨k, hk, hkmem⟩ := detectFrom_found labels doc [] 0 (by simp) j h.1
      (lt_trans hj (by simpa using hbound)) hcontra
    have : k = h.2 := nodup_fst_eq hnd hkmem (by simpa using hh)
    omega

/-- Witness for C5 at a concrete document. -/
theorem C5_detector_dedup_first_occurrence_witness :
    ((detect_headings rootLabels exDoc).map Prod.fst).Nodup ∧
    List.Chain' (fun a b : String × Nat => a.2 < b.2) (detect_headings rootLabels exDoc) ∧
    ∀ h ∈ detect_headings rootLabels exDoc,
      h.2 < exDoc.length ∧
      get_most_likely_title rootLabels (exDoc.getD h.2 default) = some h.1 ∧
      ∀ j, j < h.2 → get_most_likely_title rootLabels (exDoc.getD j default) ≠ some h.1 :=
  C5_detector_dedup_first_occurrence rootLabels exDoc

/-- Witness for C4 at a concrete page. -/
theorem C4_largest_first_tiebreak_witness :
    (get_most_likely_title rootLabels titlePage = none ↔
      titleCandidates rootLabels titlePage = []) ∧
    ∀ t, get_most_likely_title rootLabels titlePage = some t →
      ∃ s l1 l2, titleCandidates rootLabels titlePage = l1 ++ (t, s) :: l2 ∧
        (∀ c ∈ l1, c.2 < s) ∧ ∀ c ∈ titleCandidates rootLabels titlePage, c.2 ≤ s :=
  C4_largest_first_tiebreak rootLabels titlePage

/-! Section: Recipe Segmenter lemmas -/

lemma recipeRanges_nil (docLen : Nat) : recipeRanges [] docLen = [] := rfl

lemma recipeRanges_single (t : String) (s docLen : Nat) :
    recipeRanges [(t, s)] docLen = [⟨t, s, docLen⟩] := rfl

lemma recipeRanges_cons2 (t t' : String) (s s' docLen : Nat) (rest : List (String × Nat)) :
    recipeRanges ((t, s) :: (t', s') :: rest) docLen =
      ⟨t, s, s'⟩ :: recipeRanges ((t', s') :: rest) docLen := rfl

lemma countContaining_cons (r : RecipeRange) (rs : List RecipeRange) (p : Nat) :
    countContaining (r :: rs) p =
      countContaining rs p + if r.startPage ≤ p ∧ p < r.endPage then 1 else 0 := by
  unfold countContaining
  rw [List.countP_cons]
  by_cases h1 : r.startPage ≤ p <;> by_cases h2 : p < r.endPage <;> simp [h1, h2]

/-- With strictly increasing heading pages all below `docLen`, each page `p` is
contained in exactly one range iff it is at or after the page of the first heading
and before the end of the document. -/
lemma recipeRanges_count :
    ∀ (rest : List (String × Nat)) (t : String) (s docLen p : Nat),
      List.Chain' (fun a b : String × Nat => a.2 < b.2) ((t, s) :: rest) →
      (∀ h ∈ (t, s) :: rest, h.2 < docLen) →
      countContaining (recipeRanges ((t, s) :: rest) docLen) p =
        if s ≤ p ∧ p < docLen then 1 else 0 := by
  intro rest
  induction rest with
  | nil =>
    intro t s docLen p _ _
    rw [recipeRanges_single, countContaining_cons]
    dsimp only
    simp [countContaining]
  | cons h2 rest ih =>
    obtain ⟨t', s'⟩ := h2
    intro t s docLen p hch hb
    have hss' : s < s' := (List.chain'_cons.mp hch).1
    have hs'len : s' < docLen := hb (t', s') (by simp)
    rw [recipeRanges_cons2, countContaining_cons,
      ih t' s' docLen p (List.chain'_cons.mp hch).2
        (fun h hh => hb h (List.mem_cons_of_mem _ hh))]
    dsimp only
    split_ifs <;> omega

lemma recipeRanges_head_start (rest : List (String × Nat)) (t : String) (s docLen : Nat) :
    ∃ e, (recipeRanges ((t, s) :: rest) docLen).head? = some ⟨t, s, e⟩ := by
  cases rest with
  | nil => exact ⟨docLen, rfl⟩
  | cons h2 rest' =>
    obtain ⟨t', s'⟩ := h2
    exact ⟨s', rfl⟩

/-- Adjacent ranges meet exactly (`endPage = next startPage`) and start pages
strictly increase. -/
lemma recipeRanges_chain :
    ∀ (hs : List (String × Nat)) (docLen : Nat),
      List.Chain' (fun a b : String × Nat => a.2 < b.2) hs →
      List.Chain' (fun a b : RecipeRange => a.endPage = b.startPage ∧ a.startPage < b.startPage)
        (recipeRanges hs docLen) := by
  intro hs
  induction hs with
  | nil => exact fun docLen _ => List.chain'_nil
  | cons h1 rest ih =>
    obtain ⟨t, s⟩ := h1
    intro docLen hch
    cases rest with
    | nil => exact List.chain'_singleton _
    | cons h2 rest' =>
      obtain ⟨t', s'⟩ := h2
      rw [recipeRanges_cons2, List.chain'_cons']
      constructor
      · intro y hy
        obtain ⟨e, he⟩ := recipeRanges_head_start rest' t' s' docLen
        rw [he] at hy
        obtain rfl : (⟨t', s', e⟩ : RecipeRange) = y := by simpa using hy
        exact ⟨rfl, (List.chain'_cons.mp hch).1⟩
      · exact ih docLen (List.chain'_cons.mp hch).2

lemma recipeRanges_pos :
    ∀ (hs : List (String × Nat)) (docLen : Nat),
      List.Chain' (fun a b : String × Nat => a.2 < b.2) hs →
      (∀ h ∈ hs, h.2 < docLen) →
      ∀ r ∈ recipeRanges hs docLen, r.startPage < r.endPage := by
  intro hs
  induction hs with
  | nil => intro docLen _ _ r hr; simp [recipeRanges_nil] at hr
  | cons h1 rest ih =>
    obtain ⟨t, s⟩ := h1
    intro docLen hch hb r hr
    cases rest with
    | nil =>
      rw [recipeRanges_single] at hr
      obtain rfl : r = ⟨t, s, docLen⟩ := by simpa using hr
      exact hb (t, s) (by simp)
    | cons h2 rest' =>
      obtain ⟨t', s'⟩ := h2
      rw [recipeRanges_cons2] at hr
      rcases List.mem_cons.mp hr with rfl | hr'
      · exact (List.chain'_cons.mp hch).1
      · exact ih docLen (List.chain'_cons.mp hch).2
          (fun h hh => hb h (List.mem_cons_of_mem _ hh)) r hr'

lemma recipeRanges_length :
    ∀ (hs : List (String × Nat)) (docLen : Nat),
      (recipeRanges hs docLen).length = hs.length := by
  intro hs
  induction hs with
  | nil => exact fun _ => rfl
  | cons h1 rest ih =>
    obtain ⟨t, s⟩ := h1
    intro docLen
    cases rest with
    | nil => rfl
    | cons h2 rest' =>
      obtain ⟨t2, s2⟩ := h2
      simp [recipeRanges_cons2, ih docLen]

lemma recipeRanges_map_start :
    ∀ (hs : List (String × Nat)) (docLen : Nat),
      (recipeRanges hs docLen).map RecipeRange.startPage = hs.map Prod.snd := by
  intro hs
  induction hs with
  | nil => exact fun _ => rfl
  | cons h1 rest ih =>
    obtain ⟨t, s⟩ := h1
    intro docLen
    cases rest with
    | nil => rfl
    | cons h2 rest' =>
      obtain ⟨t2, s2⟩ := h2
      simp [recipeRanges_cons2, ih docLen]

lemma recipeRanges_endPage :
    ∀ (hs : List (String × Nat)) (docLen i : Nat), i + 1 < hs.length →
      ((recipeRanges hs docLen).getD i default).endPage = (hs.getD (i + 1) (("", 0))).2 := by
  intro hs
  induction hs with
  | nil => intro docLen i hi; simp at hi
  | cons h1 rest ih =>
    obtain ⟨t, s⟩ := h1
    intro docLen i hi
    cases rest with
    | nil => simp only [List.length_cons, List.length_nil] at hi; omega
    | cons h2 rest' =>
      obtain ⟨t2, s2⟩ := h2
      rw [recipeRanges_cons2]
      cases i with
      | zero => rfl
      | succ i' =>
        rw [List.getD_cons_succ, List.getD_cons_succ]
        exact ih docLen i' (by simp only [List.length_cons] at hi ⊢; omega)

lemma recipeRanges_last_end :
    ∀ (hs : List (String × Nat)) (docLen n : Nat), hs.length = n + 1 →
      ((recipeRanges hs docLen).getD n default).endPage = docLen := by
  intro hs
  induction hs with
  | nil => intro docLen n h; simp at h
  | cons h1 rest ih =>
    obtain ⟨t1, s1⟩ := h1
    intro docLen n h
    cases rest with
    | nil =>
      obtain rfl : n = 0 := by simpa using h.symm
      rfl
    | cons h2 rest' =>
      obtain ⟨t2, s2⟩ := h2
      cases n with
      | zero => simp only [List.length_cons] at h; omega
      | succ n' =>
        rw [recipeRanges_cons2, List.getD_cons_succ]
        exact ih docLen n' (by simp only [List.length_cons] at h ⊢; omega)

/-- C1 (counterexample): in `exDoc` the first detected heading is on page 1,
and page 0 lies in no Recipe Range at all — the ranges do not partition
`[0, documentLength)`. -/
theorem C1_counterexample :
    0 < exDoc.length ∧
      countContaining (recipeRanges (detect_headings rootLabels exDoc) exDoc.length) 0 = 0 := by
  decide

/-- C1 (amended): when the detector finds at least one heading, the derived
ranges partition `[firstHeadingPage, documentLength)`: a page is contained in
exactly one range iff it is at or after the page of the first heading and before
the end of the document (pages before the first heading are in no range), and the
ranges are adjacent (`endPage = next startPage`) with strictly ascending
start pages. -/
theorem C1_partition_from_first_heading (labels : List String) (doc : Document)
    (h0 : String × Nat) (rest : List (String × Nat))
    (hd : detect_headings labels doc = h0 :: rest) (p : Nat) :
    countContaining (recipeRanges (detect_headings labels doc) doc.length) p =
      (if h0.2 ≤ p ∧ p < doc.length then 1 else 0) ∧
    List.Chain' (fun a b : RecipeRange => a.endPage = b.startPage ∧ a.startPage < b.startPage)
      (recipeRanges (detect_headings labels doc) doc.length) := by
  have hch : List.Chain' (fun a b : String × Nat => a.2 < b.2) (detect_headings labels doc) :=
    detectFrom_chain labels doc [] 0 (by simp) (by simp)
  have hb : ∀ h ∈ detect_headings labels doc, h.2 < doc.length := by
    intro h hh
    simpa using detectFrom_bound labels doc [] 0 (by simp) h hh
  refine ⟨?_, recipeRanges_chain (detect_headings labels doc) doc.length hch⟩
  obtain ⟨t0, s0⟩ := h0
  rw [hd] at hch hb ⊢
  exact recipeRanges_count rest t0 s0 doc.length p hch hb

/-- Witness for the amended C1 theorem at a concrete document. -/
theorem C1_partition_witness :
    countContaining (recipeRanges (detect_headings rootLabels exDoc) exDoc.length) 1 =
      (if (("Soup", 1) : String × Nat).2 ≤ 1 ∧ 1 < exDoc.length then 1 else 0) ∧
    List.Chain' (fun a b : RecipeRange => a.endPage = b.startPage ∧ a.startPage < b.startPage)
      (recipeRanges (detect_headings rootLabels exDoc) exDoc.length) :=
  C1_partition_from_first_heading rootLabels exDoc (("Soup"), 1) [] (by decide) 1

/-- C6 (confirmed): the boundary equations of the segmenter — zero headings give
zero ranges, one range per heading, `startPage[i] = headings[i].page`,
`endPage[i] = startPage[i+1]` for non-last, `endPage[last] = documentLength` —
and the empty-heading artifacts: TOC, markdown index, HTML TOC and HTML
ingredient pages are well-formed with empty bodies, and the index is empty. -/
theorem C6_segmenter_boundaries_and_empty (hs : List (String × Nat)) (docLen : Nat)
    (doc : Document) :
    recipeRanges [] docLen = [] ∧
    (recipeRanges hs docLen).length = hs.length ∧
    (recipeRanges hs docLen).map RecipeRange.startPage = hs.map Prod.snd ∧
    (∀ i, i + 1 < hs.length →
      ((recipeRanges hs docLen).getD i default).endPage = (hs.getD (i + 1) (("", 0))).2) ∧
    (∀ n, hs.length = n + 1 →
      ((recipeRanges hs docLen).getD n default).endPage = docLen) ∧
    generate_toc_content [] = "## Table of Contents\n\n" ∧
    save_index_content [] = "## Ingredient Index\n\n" ∧
    export_to_html_toc_page [] = "<h1>Recipe Index</h1>\n<ul>\n</ul>\n" ∧
    export_to_html_ingredients_page [] = "<h1>Ingredient Index</h1>\n<ul>\n</ul>\n" ∧
    ∀ w, build_ingredient_index doc [] w = ∅ :=
  ⟨recipeRanges_nil docLen, recipeRanges_length hs docLen, recipeRanges_map_start hs docLen,
    fun i hi => recipeRanges_endPage hs docLen i hi,
    fun n hn => recipeRanges_last_end hs docLen n hn,
    by decide, by decide, by decide, by decide, fun w => rfl⟩

/-- Witness for C6 at a concrete heading list and document. -/
theorem C6_segmenter_witness :
    recipeRanges [] 2 = [] ∧
    (recipeRanges [(("Soup"), 1)] 2).length = [(("Soup"), 1)].length ∧
    (recipeRanges [(("Soup"), 1)] 2).map RecipeRange.startPage =
      [(("Soup"), 1)].map Prod.snd ∧
    (∀ i, i + 1 < [(("Soup"), 1)].length →
      ((recipeRanges [(("Soup"), 1)] 2).getD i default).endPage =
        ([(("Soup"), 1)].getD (i + 1) (("", 0))).2) ∧
    (∀ n, [(("Soup"), 1)].length = n + 1 →
      ((recipeRanges [(("Soup"), 1)] 2).getD n default).endPage = 2) ∧
    generate_toc_content [] = "## Table of Contents\n\n" ∧
    save_index_content [] = "## Ingredient Index\n\n" ∧
    export_to_html_toc_page [] = "<h1>Recipe Index</h1>\n<ul>\n</ul>\n" ∧
    export_to_html_ingredients_page [] = "<h1>Ingredient Index</h1>\n<ul>\n</ul>\n" ∧
    ∀ w, build_ingredient_index exDoc [] w = ∅ :=
  C6_segmenter_boundaries_and_empty [(("Soup"), 1)] 2 exDoc

/-! Section: Master-site exporter: `parsed` is defined whenever the loop runs -/

lemma foldl_parsed_isSome (doc : Document) :
    ∀ (l : List Nat) (acc : String × Option String), l ≠ [] →
      ((l.foldl (fun (acc : String × Option String) p =>
        let recipe_text := acc.1 ++ pageTextD doc p
        (recipe_text, some (parseSections recipe_text))) acc).2).isSome = true := by
  intro l
  induction l with
  | nil => intro acc h; exact absurd rfl h
  | cons p ps ih =>
    intro acc _
    rw [List.foldl_cons]
    cases ps with
    | nil => rfl
    | cons q qs => exact ih _ (by simp)

/-- C10 (confirmed): every range derived from detector output is non-empty
(`startPage < endPage`), so the per-recipe page loops run at least once and
the loop-local `parsed` binding of the master-site exporter is defined when it is
used after the loop. -/
theorem C10_nonempty_ranges_parsed_defined (labels : List String) (doc : Document)
    (r : RecipeRange) (hr : r ∈ recipeRanges (detect_headings labels doc) doc.length) :
    r.startPage < r.endPage ∧ (masterRecipeParsed doc r.startPage r.endPage).isSome = true := by
  have hch : List.Chain' (fun a b : String × Nat => a.2 < b.2) (detect_headings labels doc) :=
    detectFrom_chain labels doc [] 0 (by simp) (by simp)
  have hb : ∀ h ∈ detect_headings labels doc, h.2 < doc.length := by
    intro h hh
    simpa using detectFrom_bound labels doc [] 0 (by simp) h hh
  have hpos := recipeRanges_pos (detect_headings labels doc) doc.length hch hb r hr
  refine ⟨hpos, ?_⟩
  unfold masterRecipeParsed
  apply foldl_parsed_isSome
  simp only [ne_eq, List.range'_eq_nil]
  omega

/-- Witness for C10 at a concrete document and range. -/
theorem C10_nonempty_ranges_parsed_defined_witness :
    (⟨"Soup", 1, 2⟩ : RecipeRange).startPage < (⟨"Soup", 1, 2⟩ : RecipeRange).endPage ∧
    (masterRecipeParsed exDoc (⟨"Soup", 1, 2⟩ : RecipeRange).startPage
      (⟨"Soup", 1, 2⟩ : RecipeRange).endPage).isSome = true :=
  C10_nonempty_ranges_parsed_defined rootLabels exDoc ⟨"Soup", 1, 2⟩ (by decide)

/-! Section: Ingredient Indexer lemmas -/

lemma addRange_mem (idx : String → Finset String) (title text w t : String) :
    t ∈ addRange idx title text w ↔
      (w ∈ keptWords text ∧ t = title) ∨ t ∈ idx w := by
  unfold addRange
  by_cases hw : w ∈ keptWords text
  · rw [if_pos hw]
    simp [hw, Finset.mem_insert]
  · rw [if_neg hw]
    simp [hw]

lemma build_foldl_mem (doc : Document) :
    ∀ (rs : List RecipeRange) (init : String → Finset String) (w t : String),
      t ∈ (rs.foldl
          (fun idx r => addRange idx r.title (rangeText doc r.startPage r.endPage)) init) w ↔
        t ∈ init w ∨ ∃ r ∈ rs, t = r.title ∧
          w ∈ keptWords (rangeText doc r.startPage r.endPage) := by
  intro rs
  induction rs with
  | nil => intro init w t; simp
  | cons r rs ih =>
    intro init w t
    rw [List.foldl_cons, ih, addRange_mem]
    constructor
    · rintro ((⟨hw, rfl⟩ | hinit) | ⟨r', hr', ht, hw'⟩)
      · exact Or.inr ⟨r, List.mem_cons_self r rs, rfl, hw⟩
      · exact Or.inl hinit
      · exact Or.inr ⟨r', List.mem_cons_of_mem r hr', ht, hw'⟩
    · rintro (hinit | ⟨r', hr', ht, hw'⟩)
      · exact Or.inl (Or.inr hinit)
      · rcases List.mem_cons.mp hr' with rfl | hmem
        · exact Or.inl (Or.inl ⟨hw', ht⟩)
        · exact Or.inr ⟨r', hmem, ht, hw'⟩

lemma mem_keptWords (text w : String) :
    w ∈ keptWords text ↔
      ∃ tok ∈ tokenize text, tokToKey tok = w ∧ 2 < w.length ∧ w ∉ stopWords := by
  unfold keptWords
  rw [List.mem_filterMap]
  constructor
  · rintro ⟨tok, htok, hsome⟩
    by_cases hc :
        (!(decide (tokToKey tok ∈ stopWords)) && decide (2 < (tokToKey tok).length)) = true
    · rw [if_pos hc] at hsome
      obtain rfl : tokToKey tok = w := by simpa using hsome
      simp only [Bool.and_eq_true, Bool.not_eq_true', decide_eq_true_eq,
        decide_eq_false_iff_not] at hc
      exact ⟨tok, htok, rfl, hc.2, hc.1⟩
    · rw [if_neg hc] at hsome
      exact absurd hsome (by simp)
  · rintro ⟨tok, htok, rfl, hlen, hstop⟩
    refine ⟨tok, htok, ?_⟩
    rw [if_pos (by simp [hstop, hlen])]

/-- C7 (confirmed): a title belongs to the index entry of `w` iff `w` is a
kept word of the range text of that recipe (presence, not frequency: membership in
a `Finset` sees only whether some occurrence exists); the kept words are
exactly the lowercased tokens whose length exceeds 2 and which avoid the stop
words; and `"Butter"` and `"butter"` map to the same key. -/
theorem C7_indexer_characterization (doc : Document) (hs : List (String × Nat))
    (w t : String) :
    (t ∈ build_ingredient_index doc hs w ↔
      ∃ r ∈ recipeRanges hs doc.length, t = r.title ∧
        w ∈ keptWords (rangeText doc r.startPage r.endPage)) ∧
    (∀ text w', w' ∈ keptWords text ↔
      ∃ tok ∈ tokenize text, tokToKey tok = w' ∧ 2 < w'.length ∧ w' ∉ stopWords) ∧
    tokToKey (("Butter").toList) = "butter" ∧
    tokToKey (("butter").toList) = "butter" := by
  refine ⟨?_, fun text w' => mem_keptWords text w', by decide, by decide⟩
  unfold build_ingredient_index
  rw [build_foldl_mem doc]
  simp

/-- Witness for C7 at a concrete document and heading list. -/
theorem C7_indexer_witness :
    (("Soup" : String) ∈ build_ingredient_index exDoc [(("Soup"), 1)] ("water") ↔
      ∃ r ∈ recipeRanges [(("Soup"), 1)] exDoc.length, ("Soup" : String) = r.title ∧
        ("water" : String) ∈ keptWords (rangeText exDoc r.startPage r.endPage)) ∧
    (∀ text w', w' ∈ keptWords text ↔
      ∃ tok ∈ tokenize text, tokToKey tok = w' ∧ 2 < w'.length ∧ w' ∉ stopWords) ∧
    tokToKey (("Butter").toList) = "butter" ∧
    tokToKey (("butter").toList) = "butter" :=
  C7_indexer_characterization exDoc [(("Soup"), 1)] ("water") ("Soup")

/-! Section: Cross-source matcher and sanitizer claims -/

/-- C8 (confirmed): `normalize_title` collapses punctuation, case and
whitespace — `"Apple Pie"`, `"apple-pie"` and `"APPLE PIE!"` share one key,
`"Apple Pie"` and `"Apple Pies"` do not — and the also-found-in list of the
master-site exporter contains exactly the registry sources for the key of the title minus the current source. -/
theorem C8_normalize_and_other_sources :
    normalize_title ("Apple Pie") = normalize_title ("apple-pie") ∧
    normalize_title ("APPLE PIE!") = normalize_title ("Apple Pie") ∧
    normalize_title ("Apple Pie") ≠ normalize_title ("Apple Pies") ∧
    ∀ (reg : List (String × List String)) (title source s : String),
      s ∈ other_sources reg (normalize_title title) source ↔
        (s ∈ ((reg.lookup (normalize_title title)).getD []) ∧ s ≠ source) := by
  refine ⟨by decide, by decide, by decide, ?_⟩
  intro reg title source s
  unfold other_sources
  rw [List.mem_filter]
  simp [bne_iff_ne]

/-- Witness for the exporter clause of C8 at a concrete registry. -/
theorem C8_normalize_witness :
    ("BookB" : String) ∈ other_sources [(("applepie"), ["BookA", "BookB"])]
        (normalize_title ("Apple Pie")) ("BookA") ↔
      (("BookB" : String) ∈ (([(("applepie"), ["BookA", "BookB"])].lookup
          (normalize_title ("Apple Pie"))).getD []) ∧ ("BookB" : String) ≠ "BookA") :=
  C8_normalize_and_other_sources.2.2.2 [(("applepie"), ["BookA", "BookB"])]
    ("Apple Pie") ("BookA") ("BookB")

/-- C9 (confirmed): `sanitize_title` is not injective on scorer-admissible
titles: `"Mrs. Beeton Soup"` and `"Mrs. Crocker Soup"` both pass the
candidate filter, yet `os.path.splitext` discards everything from the last
period on, so both sanitize to `"Mrs"` and one output file overwrites the
other. -/
theorem C9_sanitize_not_injective :
    ("Mrs. Beeton Soup" : String) ≠ "Mrs. Crocker Soup" ∧
    sanitize_title ("Mrs. Beeton Soup") = sanitize_title ("Mrs. Crocker Soup") ∧
    isCandidateText cookbookProjectLabels ("Mrs. Beeton Soup") = true ∧
    isCandidateText cookbookProjectLabels ("Mrs. Crocker Soup") = true := by
  decide

/-- C3 (code-bug evidence): two enumerations of the same ingredient index —
equal key lists and permuted (set-equal) title lists — yield different bytes
from the `export_to_html` ingredient page: that page depends on the set
iteration order, so a rerun with a different hash seed is not byte-identical. -/
theorem C3_ingredient_page_order_dependent :
    idxEnumA.map Prod.fst = idxEnumB.map Prod.fst ∧
    (["Apple Pie", "Banana Bread"] : List String).Perm ["Banana Bread", "Apple Pie"] ∧
    ((idxEnumA.lookup ("butter")).getD []).Perm ((idxEnumB.lookup ("butter")).getD []) ∧
    export_to_html_ingredients_page idxEnumA ≠ export_to_html_ingredients_page idxEnumB := by
  decide

end Cookbook
